import Mathlib

/-!
# fun-c: `functional.h`

A shallow embedding of the header `src/functional.h` (the statement-expression
forms `FOREACH`, `MAP`, `FILTER`, `REDUCE` and the variadic functions `int_pipe`
and `array_pipe`) together with the properties proved about it.

Conventions of the embedding.

* A C `int` is an `Int`.  The header does no arithmetic on elements; the only
  counters it increments (`i`, `filtered.len`) stay below `array.len`, so no
  wrap-around can occur in the code that is modelled.
* A pointer `int *arr` is modelled by the block of cells it points to.  A cell
  is `none` while it is indeterminate (fresh from `malloc`) and `some v` once
  a value has been stored.  `malloc` is taken to succeed.
* Undefined behaviour (access outside the block, read of an indeterminate
  cell, call through a null pointer, `va_arg` with no or a wrongly typed next
  argument) is an explicit `Fault`.
* Every operation returns its value together with the list of observable
  events it produced: the `printf` lines and the calls made to the function
  argument, in order.  `FOREACH`, which yields no value, returns the array it
  iterated as that array is after the run.
* Loops are unfolded with a fuel counter; running out of fuel is the fault
  `Fault.fuel`.  The entry points supply as much fuel as the loop can need.
-/

namespace FunC

/-! ## Data model -/

/-- Ways in which a run of the C code can leave defined behaviour. -/
inductive Fault
  | out_of_bounds
  | indeterminate
  | null_call
  | va_arg
  | fuel
  deriving DecidableEq

/-- Observable events of a run: a line written by `printf`, or a call of the
function argument with the given actual arguments. -/
inductive Event
  | print (s : String)
  | call (args : List Int)
  deriving DecidableEq

/-- The outcome of running a piece of the header: a fault, or a value together
with the events produced. -/
abbrev Run (α : Type) := Except Fault (α × List Event)

def MAP_ENUM : Int := 1
def FOREACH_ENUM : Int := 2
def FILTER_ENUM : Int := 3
def REDUCE_ENUM : Int := 4

/-- The struct `array_t`: `arr` is the block of cells the pointer refers to,
`len` the length field. -/
structure array_t where
  arr : List (Option Int)
  len : Int
  deriving DecidableEq

/-- The block returned by `malloc(sizeof(int) * n)`: `n` indeterminate cells. -/
def malloc (n : Int) : List (Option Int) :=
  List.replicate n.toNat none

/-- The read `block[i]`. -/
def load (block : List (Option Int)) (i : Int) : Except Fault Int :=
  if i < 0 then .error .out_of_bounds
  else
    match block[i.toNat]? with
    | none => .error .out_of_bounds
    | some none => .error .indeterminate
    | some (some v) => .ok v

/-- The write `block[i] = v`. -/
def store (block : List (Option Int)) (i : Int) (v : Int) :
    Except Fault (List (Option Int)) :=
  if i < 0 then .error .out_of_bounds
  else if i.toNat < block.length then .ok (block.set i.toNat (some v))
  else .error .out_of_bounds

/-- The calls recorded in a list of events, in order. -/
def calls : List Event → List (List Int)
  | [] => []
  | .print _ :: tr => calls tr
  | .call args :: tr => args :: calls tr

/-- The first `len` cells of an array's block. -/
def array_t.live (a : array_t) : List (Option Int) :=
  a.arr.take a.len.toNat

/-- An array as the C code expects it: `len` is not negative, the block has at
least `len` cells, and the first `len` cells hold values. -/
def array_t.valid (a : array_t) : Prop :=
  0 ≤ a.len ∧ a.len.toNat ≤ a.arr.length ∧ ∀ c ∈ a.live, c ≠ none

instance (a : array_t) : Decidable a.valid := by
  unfold array_t.valid
  infer_instance

/-- The elements of an array: the values in its first `len` cells. -/
def array_t.elems (a : array_t) : List Int :=
  a.live.filterMap id

/-- The array whose block holds exactly the given values. -/
def array_t.of_list (xs : List Int) : array_t :=
  { arr := xs.map some, len := xs.length }

/-! ## The statement-expression forms -/

/-- The loop of `FOREACH`: `for (int i = 0; i < array.len; i++) func(array.arr[i]);`
started at index `i`.  The array is the state of the loop: each turn tests
`array.len`, reads `array.arr[i]` and passes the value read to `func`, and the
array as the loop leaves it is returned. -/
def FOREACH_loop (func : Int → Unit) :
    Nat → Int → array_t → List Event → Run array_t
  | 0, i, array, tr =>
    if i < array.len then .error .fuel else .ok (array, tr)
  | fuel + 1, i, array, tr =>
    if i < array.len then
      match load array.arr i with
      | .error e => .error e
      | .ok x =>
        let _ := func x
        FOREACH_loop func fuel (i + 1) array (tr ++ [.call [x]])
    else .ok (array, tr)

/-- The form `FOREACH(array, func)`.  The value returned is the array as it is
after the form has run. -/
def FOREACH (array : array_t) (func : Int → Unit) : Run array_t :=
  match FOREACH_loop func array.len.toNat 0 array [.print "FOREACH!\n"] with
  | .error e => .error e
  | .ok (array, tr) => .ok (array, tr ++ [.print "FOREACH!\n"])

/-- The loop of `MAP`:
`for (int i = 0; i < array.len; i++) mapped.arr[i] = func(array.arr[i]);`
started at index `i`. -/
def MAP_loop (array : array_t) (func : Int → Int) :
    Nat → Int → array_t → List Event → Run array_t
  | 0, i, mapped, tr =>
    if i < array.len then .error .fuel else .ok (mapped, tr)
  | fuel + 1, i, mapped, tr =>
    if i < array.len then
      match load array.arr i with
      | .error e => .error e
      | .ok x =>
        match store mapped.arr i (func x) with
        | .error e => .error e
        | .ok blk =>
          MAP_loop array func fuel (i + 1) { mapped with arr := blk } (tr ++ [.call [x]])
    else .ok (mapped, tr)

/-- The form `MAP(array, func)`. -/
def MAP (array : array_t) (func : Int → Int) : Run array_t :=
  let map_arr := malloc array.len
  let mapped : array_t := { arr := map_arr, len := array.len }
  match MAP_loop array func array.len.toNat 0 mapped [] with
  | .error e => .error e
  | .ok (mapped, tr) => .ok (mapped, tr ++ [.print "MAP!\n"])

/-- The loop of `FILTER`:
`for (int i = 0; i < array.len; i++) if (func(array.arr[i])) { ... }`
started at index `i`. -/
def FILTER_loop (array : array_t) (func : Int → Int) :
    Nat → Int → array_t → List Event → Run array_t
  | 0, i, filtered, tr =>
    if i < array.len then .error .fuel else .ok (filtered, tr)
  | fuel + 1, i, filtered, tr =>
    if i < array.len then
      match load array.arr i with
      | .error e => .error e
      | .ok x =>
        if func x ≠ 0 then
          match load array.arr i with
          | .error e => .error e
          | .ok y =>
            match store filtered.arr filtered.len y with
            | .error e => .error e
            | .ok blk =>
              FILTER_loop array func fuel (i + 1)
                { arr := blk, len := filtered.len + 1 } (tr ++ [.call [x]])
        else FILTER_loop array func fuel (i + 1) filtered (tr ++ [.call [x]])
    else .ok (filtered, tr)

/-- The form `FILTER(array, func)`. -/
def FILTER (array : array_t) (func : Int → Int) : Run array_t :=
  let filter_arr := malloc array.len
  let filtered : array_t := { arr := filter_arr, len := 0 }
  match FILTER_loop array func array.len.toNat 0 filtered [] with
  | .error e => .error e
  | .ok (filtered, tr) => .ok (filtered, tr ++ [.print "FILTER!\n"])

/-- The loop of `REDUCE`:
`for (int i = 0; i < array.len; i++) reduced = func(reduced, array.arr[i]);`
started at index `i`. -/
def REDUCE_loop (array : array_t) (func : Int → Int → Int) :
    Nat → Int → Int → List Event → Run Int
  | 0, i, reduced, tr =>
    if i < array.len then .error .fuel else .ok (reduced, tr)
  | fuel + 1, i, reduced, tr =>
    if i < array.len then
      match load array.arr i with
      | .error e => .error e
      | .ok x =>
        REDUCE_loop array func fuel (i + 1) (func reduced x) (tr ++ [.call [reduced, x]])
    else .ok (reduced, tr)

/-- The form `REDUCE(array, initial, func)`. -/
def REDUCE (array : array_t) (initial : Int) (func : Int → Int → Int) : Run Int :=
  let reduced := initial
  match REDUCE_loop array func array.len.toNat 0 reduced [] with
  | .error e => .error e
  | .ok (reduced, tr) => .ok (reduced, tr ++ [.print "REDUCE!\n"])

/-! ## The variadic functions -/

/-- One actual argument of a variadic call: an `int`, a non-null pointer to a
function of type `int (int)`, `void (int)` or `int (int, int)`, or `NULL`. -/
inductive va_arg_t
  | int (n : Int)
  | fn (f : Int → Int)
  | consumer (g : Int → Unit)
  | fn2 (f : Int → Int → Int)
  | null

/-- The step `va_arg(args, int)`: the next argument and the remaining list. -/
def va_arg_int : List va_arg_t → Except Fault (Int × List va_arg_t)
  | .int n :: rest => .ok (n, rest)
  | _ => .error .va_arg

/-- The step `va_arg(args, int (*)(int))`; `none` is the null pointer. -/
def va_arg_fn : List va_arg_t → Except Fault (Option (Int → Int) × List va_arg_t)
  | .fn f :: rest => .ok (some f, rest)
  | .null :: rest => .ok (none, rest)
  | _ => .error .va_arg

/-- The step `va_arg(args, void (*)(int))`; `none` is the null pointer. -/
def va_arg_consumer : List va_arg_t → Except Fault (Option (Int → Unit) × List va_arg_t)
  | .consumer g :: rest => .ok (some g, rest)
  | .null :: rest => .ok (none, rest)
  | _ => .error .va_arg

/-- The loop of `int_pipe`:
`while ((func = va_arg(args, int (*)(int))) != NULL) value = func(value);`. -/
def int_pipe_loop : Nat → Int → List va_arg_t → List Event → Run Int
  | 0, _, _, _ => .error .fuel
  | fuel + 1, value, args, tr =>
    match va_arg_fn args with
    | .error e => .error e
    | .ok (none, _) => .ok (value, tr)
    | .ok (some func, args) =>
      int_pipe_loop fuel (func value) args (tr ++ [.call [value]])

/-- The function `int_pipe(value, ...)`; `args` are the variadic arguments.
Each turn of the loop takes one argument, so `args.length + 1` turns of fuel
are enough. -/
def int_pipe (value : Int) (args : List va_arg_t) : Run Int :=
  int_pipe_loop (args.length + 1) value args []

/-- The expansion of `MAP(value, map_func)` for a pointer `map_func`: a null
pointer is called only when the loop body runs, that is when `0 < value.len`;
otherwise the function is never used. -/
def MAP_ptr (array : array_t) (func : Option (Int → Int)) : Run array_t :=
  match func with
  | some f => MAP array f
  | none =>
    if 0 < array.len then
      match load array.arr 0 with
      | .error e => .error e
      | .ok _ => .error .null_call
    else MAP array (fun x => x)

/-- The expansion of `FOREACH(value, foreach_func)` for a pointer
`foreach_func`, with the same treatment of the null pointer. -/
def FOREACH_ptr (array : array_t) (func : Option (Int → Unit)) : Run array_t :=
  match func with
  | some f => FOREACH array f
  | none =>
    if 0 < array.len then
      match load array.arr 0 with
      | .error e => .error e
      | .ok _ => .error .null_call
    else FOREACH array (fun _ => ())

/-- The loop of `array_pipe`:
`while ((choice = va_arg(args, int)) != 0) switch (choice) { ... }`. -/
def array_pipe_loop : Nat → array_t → List va_arg_t → List Event → Run array_t
  | 0, _, _, _ => .error .fuel
  | fuel + 1, value, args, tr =>
    match va_arg_int args with
    | .error e => .error e
    | .ok (choice, args) =>
      if choice ≠ 0 then
        if choice = MAP_ENUM then
          match va_arg_fn args with
          | .error e => .error e
          | .ok (map_func, args) =>
            match MAP_ptr value map_func with
            | .error e => .error e
            | .ok (value, tr1) => array_pipe_loop fuel value args (tr ++ tr1)
        else if choice = FOREACH_ENUM then
          match va_arg_consumer args with
          | .error e => .error e
          | .ok (foreach_func, args) =>
            match FOREACH_ptr value foreach_func with
            | .error e => .error e
            | .ok (value, tr1) => array_pipe_loop fuel value args (tr ++ tr1)
        else array_pipe_loop fuel value args tr
      else .ok (value, tr)

/-- The function `array_pipe(value, ...)`; `args` are the variadic arguments.
Each turn of the loop takes at least one argument, so `args.length + 1` turns
of fuel are enough. -/
def array_pipe (value : array_t) (args : List va_arg_t) : Run array_t :=
  array_pipe_loop (args.length + 1) value args []

/-! ## Reference functions used in the statements -/

/-- The argument lists of the calls a left fold makes: `func` is called with
the current accumulator and the next element, from the first element on. -/
def fold_args (func : Int → Int → Int) : Int → List Int → List (List Int)
  | _, [] => []
  | acc, x :: xs => [acc, x] :: fold_args func (func acc x) xs

/-- The elements a filter keeps: those on which the predicate is not zero. -/
def kept (p : Int → Int) (xs : List Int) : List Int :=
  xs.filter (fun x => decide (p x ≠ 0))

/-- The events of calling a one-argument function on each element in turn. -/
def each_call (xs : List Int) : List Event :=
  xs.map (fun x => .call [x])

/-- The doubling function of the concrete scenario. -/
def twice (x : Int) : Int := x * 2

/-- The predicate `x > 4` of the concrete scenario, as a C truth value. -/
def above4 (x : Int) : Int := if x > 4 then 1 else 0

/-- A predicate that holds of every input. -/
def always_true (_ : Int) : Int := 1

/-- The addition of the concrete scenario. -/
def plus (a b : Int) : Int := a + b

/-! ## The body of the loop of `FILTER` -/

/-- One turn of the body of the loop of `FILTER` at index `i` on the output
`filtered`: `if (func(array.arr[i])) { filtered.arr[filtered.len] = array.arr[i];
filtered.len++; }`. -/
def FILTER_body (array : array_t) (func : Int → Int) (i : Int) (filtered : array_t) :
    Except Fault array_t :=
  match load array.arr i with
  | .error e => .error e
  | .ok x =>
    if func x ≠ 0 then
      match load array.arr i with
      | .error e => .error e
      | .ok y =>
        match store filtered.arr filtered.len y with
        | .error e => .error e
        | .ok blk => .ok { arr := blk, len := filtered.len + 1 }
    else .ok filtered

/-- The output of `FILTER` when the loop test is reached with `i = k`: the
fresh output `{ .arr = filter_arr, .len = 0 }` after `k` turns of the body, at
the indices `0, ..., k - 1`. -/
def FILTER_after (array : array_t) (func : Int → Int) : Nat → Except Fault array_t
  | 0 => .ok { arr := malloc array.len, len := 0 }
  | k + 1 =>
    match FILTER_after array func k with
    | .error e => .error e
    | .ok filtered => FILTER_body array func (k : Int) filtered

/-- The number of cells of a block that have been written. -/
def written (blk : List (Option Int)) : Nat :=
  (blk.filter Option.isSome).length

/-! ## Operation lists -/

/-- An operation of one of the two kinds the dispatcher has a case for: a map
with its function, or a foreach with its consumer. -/
inductive Stage
  | map (f : Int → Int)
  | foreach (g : Int → Unit)

/-- The variadic arguments that pass one operation to `array_pipe`: its tag,
then its function. -/
def Stage.args : Stage → List va_arg_t
  | .map f => [.int MAP_ENUM, .fn f]
  | .foreach g => [.int FOREACH_ENUM, .consumer g]

/-- The variadic arguments that pass a list of operations, in order, without
the terminator. -/
def stage_args : List Stage → List va_arg_t
  | [] => []
  | op :: ops => op.args ++ stage_args ops

/-- One step of the dispatcher as the specification describes it: the
operation is matched on its tag and the matching stage operator is invoked on
the current value; a map replaces the current array by `MAP(current, f)`, a
foreach runs `FOREACH(current, g)` and keeps the current array.  A failed
stage ends the run. -/
def apply_stage (cur : Run array_t) (op : Stage) : Run array_t :=
  match cur with
  | .error e => .error e
  | .ok (value, tr) =>
    match op with
    | .map f =>
      match MAP value f with
      | .error e => .error e
      | .ok (mapped, tr1) => .ok (mapped, tr ++ tr1)
    | .foreach g =>
      match FOREACH value g with
      | .error e => .error e
      | .ok (_, tr1) => .ok (value, tr ++ tr1)

/-- The dispatcher as the specification describes it: the operations are
folded from left to right, each stage consuming the output of the one before,
starting from the initial sequence. -/
def run_stages (S : array_t) (ops : List Stage) : Run array_t :=
  ops.foldl apply_stage (.ok (S, []))

/-- A consumer, for the concrete instances. -/
def ignore (_ : Int) : Unit := ()

/-- The successor function, for the concrete instances. -/
def succ1 (x : Int) : Int := x + 1

/-- The argument lists of the calls a pipe of one-argument functions makes:
the first function is called with the initial value, each later one with the
result of the one before. -/
def pipe_args : Int → List (Int → Int) → List (List Int)
  | _, [] => []
  | v, f :: fs => [v] :: pipe_args (f v) fs

/-- The output of `FILTER` after `k` turns of its loop, in closed form: the
kept ones among the first `k` elements, followed by the cells not yet written. -/
def output_after (a : array_t) (p : Int → Int) (k : Nat) : array_t :=
  { arr := (kept p (a.elems.take k)).map some
      ++ List.replicate (a.len.toNat - (kept p (a.elems.take k)).length) none,
    len := ((kept p (a.elems.take k)).length : Int) }

/-! ## Lists and blocks -/

theorem take_succ_set {α : Type} (l : List α) (k : Nat) (v : α) (h : k < l.length) :
    (l.set k v).take (k + 1) = l.take k ++ [v] := by
  induction l generalizing k with
  | nil => simp at h
  | cons a l ih =>
    cases k with
    | zero => simp
    | succ k =>
      simp only [List.length_cons, Nat.add_lt_add_iff_right] at h
      simp [ih k h]

theorem drop_set_lt {α : Type} (l : List α) (k j : Nat) (v : α) (h : k < j) :
    (l.set k v).drop j = l.drop j := by
  induction l generalizing k j with
  | nil => simp
  | cons a l ih =>
    cases j with
    | zero => omega
    | succ j =>
      cases k with
      | zero => simp
      | succ k => simp [ih k j (by omega)]

theorem drop_eq_cons_of_getElem? {α : Type} (l : List α) (k : Nat) (x : α)
    (h : l[k]? = some x) : l.drop k = x :: l.drop (k + 1) := by
  induction l generalizing k with
  | nil => simp at h
  | cons a l ih =>
    cases k with
    | zero => simp at h; simp [h]
    | succ k => simp at h; simpa using ih k h

theorem eq_map_some_filterMap (l : List (Option Int)) (h : ∀ c ∈ l, c ≠ none) :
    l = (l.filterMap id).map some := by
  induction l with
  | nil => simp
  | cons c l ih =>
    have hl : ∀ c ∈ l, c ≠ none := fun d hd => h d (List.mem_cons_of_mem _ hd)
    cases c with
    | none => exact absurd rfl (h none (List.mem_cons_self _ _))
    | some v =>
      have e := ih hl
      simp only [List.filterMap_cons, id, List.map_cons]
      rw [← e]

theorem calls_append (a b : List Event) : calls (a ++ b) = calls a ++ calls b := by
  induction a with
  | nil => simp [calls]
  | cons e a ih =>
    cases e with
    | print s => simpa [calls] using ih
    | call args => simpa [calls] using ih

theorem calls_map_call (l : List (List Int)) : calls (l.map Event.call) = l := by
  induction l with
  | nil => simp [calls]
  | cons x l ih => simpa [calls] using ih

theorem calls_each_call (xs : List Int) : calls (each_call xs) = xs.map (fun x => [x]) := by
  induction xs with
  | nil => simp [each_call, calls]
  | cons x xs ih => simpa [each_call, calls] using ih

/-! ## Valid arrays -/

theorem array_t.live_eq (a : array_t) (h : a.valid) : a.live = a.elems.map some :=
  eq_map_some_filterMap a.live h.2.2

theorem array_t.elems_length (a : array_t) (h : a.valid) : a.elems.length = a.len.toNat := by
  have e := congrArg List.length (a.live_eq h)
  have h2 := h.2.1
  simp only [array_t.live, List.length_take, List.length_map] at e
  omega

theorem array_t.arr_getElem? (a : array_t) (h : a.valid) (k : Nat) (hk : k < a.len.toNat) :
    a.arr[k]? = (a.elems[k]?).map some := by
  have e := congrArg (fun l => l[k]?) (a.live_eq h)
  simp only [array_t.live, List.getElem?_take, List.getElem?_map] at e
  simpa [hk] using e

theorem load_valid (a : array_t) (h : a.valid) (k : Nat) (x : Int)
    (hx : a.elems[k]? = some x) : load a.arr (k : Int) = .ok x := by
  have hk : k < a.len.toNat := by
    have := (List.getElem?_eq_some_iff.1 hx).1
    rw [a.elems_length h] at this
    exact this
  have e := a.arr_getElem? h k hk
  rw [hx] at e
  simp [load, e]

theorem array_t.of_list_valid (xs : List Int) : (array_t.of_list xs).valid := by
  refine ⟨by simp [array_t.of_list], by simp [array_t.of_list], ?_⟩
  intro c hc
  simp only [array_t.live, array_t.of_list] at hc
  have := List.mem_of_mem_take hc
  simp only [List.mem_map] at this
  obtain ⟨v, _, rfl⟩ := this
  simp

theorem array_t.of_list_elems (xs : List Int) : (array_t.of_list xs).elems = xs := by
  have e : List.take xs.length (List.map some xs) = List.map some xs :=
    List.take_of_length_le (by simp)
  simp only [array_t.elems, array_t.live, array_t.of_list, Int.toNat_ofNat, e]
  simp

/-! ## The loops on valid arrays -/

theorem store_ok (blk : List (Option Int)) (k : Nat) (v : Int) (h : k < blk.length) :
    store blk (k : Int) v = .ok (blk.set k (some v)) := by
  have : ¬ ((k : Int) < 0) := by omega
  simp [store, this, h]

theorem array_t.elems_drop_len (a : array_t) (h : a.valid) (k : Nat) (hk : a.len.toNat ≤ k) :
    a.elems.drop k = [] :=
  List.drop_eq_nil_of_le (by rw [a.elems_length h]; exact hk)

theorem array_t.elems_getElem? (a : array_t) (h : a.valid) (k : Nat) (hk : k < a.len.toNat) :
    ∃ x, a.elems[k]? = some x := by
  have hkl : k < a.elems.length := by rw [a.elems_length h]; exact hk
  exact ⟨a.elems[k], List.getElem?_eq_getElem hkl⟩

theorem MAP_loop_spec (a : array_t) (f : Int → Int) (h : a.valid) :
    ∀ (fuel k : Nat) (blk : List (Option Int)) (L : Int) (tr : List Event),
      k + fuel = a.len.toNat → blk.length = a.len.toNat →
      MAP_loop a f fuel (k : Int) ⟨blk, L⟩ tr =
        .ok (⟨blk.take k ++ (a.elems.drop k).map (fun x => some (f x)), L⟩,
          tr ++ each_call (a.elems.drop k)) := by
  intro fuel
  induction fuel with
  | zero =>
    intro k blk L tr hk hb
    have h0 := h.1
    have hlt : ¬ ((k : Int) < a.len) := by omega
    have hd := a.elems_drop_len h k (by omega)
    have ht : blk.take k = blk := List.take_of_length_le (by omega)
    simp [MAP_loop, hlt, hd, ht, each_call]
  | succ fuel ih =>
    intro k blk L tr hk hb
    have h0 := h.1
    have hlt : (k : Int) < a.len := by omega
    obtain ⟨x, hx⟩ := a.elems_getElem? h k (by omega)
    have hl := load_valid a h k x hx
    have hs := store_ok blk k (f x) (by omega)
    have hd := drop_eq_cons_of_getElem? a.elems k x hx
    have hi := ih (k + 1) (blk.set k (some (f x))) L (tr ++ [.call [x]]) (by omega)
      (by simpa using hb)
    push_cast at hi
    simp only [MAP_loop, hlt, if_true, hl, hs]
    rw [hi, take_succ_set _ _ _ (by omega), hd]
    simp [each_call]

theorem MAP_spec (a : array_t) (f : Int → Int) (h : a.valid) :
    MAP a f = .ok (⟨(a.elems.map f).map some, a.len⟩,
      each_call a.elems ++ [.print "MAP!\n"]) := by
  have hi := MAP_loop_spec a f h a.len.toNat 0 (malloc a.len) a.len [] (by omega)
    (by simp [malloc])
  simp only [Nat.cast_zero] at hi
  simp [MAP, hi]

theorem kept_length_le (p : Int → Int) (xs : List Int) : (kept p xs).length ≤ xs.length :=
  List.length_filter_le _ _

theorem FILTER_loop_spec (a : array_t) (p : Int → Int) (h : a.valid) :
    ∀ (fuel k : Nat) (blk : List (Option Int)) (m : Nat) (tr : List Event),
      k + fuel = a.len.toNat → m ≤ k → blk.length = a.len.toNat →
      FILTER_loop a p fuel (k : Int) ⟨blk, (m : Int)⟩ tr =
        .ok (⟨blk.take m ++ (kept p (a.elems.drop k)).map some
                ++ blk.drop (m + (kept p (a.elems.drop k)).length),
              ((m + (kept p (a.elems.drop k)).length : Nat) : Int)⟩,
          tr ++ each_call (a.elems.drop k)) := by
  intro fuel
  induction fuel with
  | zero =>
    intro k blk m tr hk hm hb
    have h0 := h.1
    have hlt : ¬ ((k : Int) < a.len) := by omega
    have hd := a.elems_drop_len h k (by omega)
    simp [FILTER_loop, hlt, hd, each_call, kept]
  | succ fuel ih =>
    intro k blk m tr hk hm hb
    have h0 := h.1
    have hlt : (k : Int) < a.len := by omega
    obtain ⟨x, hx⟩ := a.elems_getElem? h k (by omega)
    have hl := load_valid a h k x hx
    have hd := drop_eq_cons_of_getElem? a.elems k x hx
    by_cases hp : p x ≠ 0
    · have hs := store_ok blk m x (by omega)
      have hi := ih (k + 1) (blk.set m (some x)) (m + 1) (tr ++ [.call [x]]) (by omega)
        (by omega) (by simpa using hb)
      push_cast at hi
      have hk1 : kept p (x :: a.elems.drop (k + 1)) = x :: kept p (a.elems.drop (k + 1)) := by
        simp [kept, hp]
      simp only [FILTER_loop, hlt, if_true, hl, hp, hs, ne_eq, not_false_eq_true]
      rw [hi, take_succ_set _ _ _ (by omega), drop_set_lt _ _ _ _ (by omega), hd, hk1]
      simp only [List.map_cons, List.length_cons, each_call, List.append_assoc,
        List.singleton_append]
      have e : m + 1 + (kept p (a.elems.drop (k + 1))).length
          = m + ((kept p (a.elems.drop (k + 1))).length + 1) := by omega
      rw [e]
      push_cast
      rw [add_assoc, add_comm (1 : Int)]
    · have hi := ih (k + 1) blk m (tr ++ [.call [x]]) (by omega) (by omega) hb
      push_cast at hi
      have hk1 : kept p (x :: a.elems.drop (k + 1)) = kept p (a.elems.drop (k + 1)) := by
        simp only [kept]
        exact List.filter_cons_of_neg (by simpa using hp)
      simp only [FILTER_loop, hlt, if_true, hl, hp, if_false]
      rw [hi, hd, hk1]
      simp [each_call]

theorem FILTER_spec (a : array_t) (p : Int → Int) (h : a.valid) :
    FILTER a p = .ok (⟨(kept p a.elems).map some
          ++ List.replicate (a.len.toNat - (kept p a.elems).length) none,
        ((kept p a.elems).length : Int)⟩,
      each_call a.elems ++ [.print "FILTER!\n"]) := by
  have hi := FILTER_loop_spec a p h a.len.toNat 0 (malloc a.len) 0 [] (by omega) (by omega)
    (by simp [malloc])
  simp only [Nat.cast_zero] at hi
  simp only [FILTER, hi]
  simp [malloc]

theorem REDUCE_loop_spec (a : array_t) (fn : Int → Int → Int) (h : a.valid) :
    ∀ (fuel k : Nat) (acc : Int) (tr : List Event),
      k + fuel = a.len.toNat →
      REDUCE_loop a fn fuel (k : Int) acc tr =
        .ok ((a.elems.drop k).foldl fn acc, tr ++ (fold_args fn acc (a.elems.drop k)).map Event.call) := by
  intro fuel
  induction fuel with
  | zero =>
    intro k acc tr hk
    have h0 := h.1
    have hlt : ¬ ((k : Int) < a.len) := by omega
    have hd := a.elems_drop_len h k (by omega)
    simp [REDUCE_loop, hlt, hd, fold_args]
  | succ fuel ih =>
    intro k acc tr hk
    have h0 := h.1
    have hlt : (k : Int) < a.len := by omega
    obtain ⟨x, hx⟩ := a.elems_getElem? h k (by omega)
    have hl := load_valid a h k x hx
    have hd := drop_eq_cons_of_getElem? a.elems k x hx
    have hi := ih (k + 1) (fn acc x) (tr ++ [.call [acc, x]]) (by omega)
    push_cast at hi
    simp only [REDUCE_loop, hlt, if_true, hl]
    rw [hi, hd]
    simp [fold_args]

theorem REDUCE_spec (a : array_t) (init : Int) (fn : Int → Int → Int) (h : a.valid) :
    REDUCE a init fn = .ok (a.elems.foldl fn init,
      (fold_args fn init a.elems).map Event.call ++ [.print "REDUCE!\n"]) := by
  have hi := REDUCE_loop_spec a fn h a.len.toNat 0 init [] (by omega)
  simp only [Nat.cast_zero] at hi
  simp [REDUCE, hi]

/-! ## Arrays produced by the forms -/

theorem array_t.mk_live (ys : List Int) (rest : List (Option Int)) :
    (array_t.mk (ys.map some ++ rest) (ys.length : Int)).live = ys.map some := by
  simp only [array_t.live, Int.toNat_ofNat]
  exact List.take_left' (by simp)

theorem array_t.mk_valid (ys : List Int) (rest : List (Option Int)) :
    (array_t.mk (ys.map some ++ rest) (ys.length : Int)).valid := by
  refine ⟨by simp, by simp, ?_⟩
  intro c hc
  rw [array_t.mk_live] at hc
  obtain ⟨v, _, rfl⟩ := List.mem_map.1 hc
  simp

theorem array_t.mk_elems (ys : List Int) (rest : List (Option Int)) :
    (array_t.mk (ys.map some ++ rest) (ys.length : Int)).elems = ys := by
  simp only [array_t.elems, array_t.mk_live]
  simp

theorem array_t.len_eq (a : array_t) (h : a.valid) : a.len = (a.elems.length : Int) := by
  have h0 := h.1
  rw [a.elems_length h]
  omega

/-- On a valid array the reads below `len` succeed and return the elements. -/
theorem load_elems (a : array_t) (h : a.valid) (i : Int) (h0 : 0 ≤ i) (h1 : i < a.len) :
    ∃ v, a.elems[i.toNat]? = some v ∧ load a.arr i = .ok v := by
  obtain ⟨v, hv⟩ := a.elems_getElem? h i.toNat (by omega)
  refine ⟨v, hv, ?_⟩
  have := load_valid a h i.toNat v hv
  rwa [Int.toNat_of_nonneg h0] at this

/-! ## The stage operators -/

/-- C1: on every valid array `S` and for every function `f`, `MAP(S, f)` returns
an array whose `len` is `S.len` and whose cell at every index `i` below `S.len`
holds `f` of the input's cell `i`; its elements are the pointwise image of the
input's elements, in the original order. -/
theorem MAP_pointwise (S : array_t) (f : Int → Int) (hS : S.valid) :
    ∃ r tr, MAP S f = .ok (r, tr) ∧ r.len = S.len ∧ r.elems = S.elems.map f ∧
      ∀ i : Int, 0 ≤ i → i < S.len →
        ∃ v, load S.arr i = .ok v ∧ load r.arr i = .ok (f v) := by
  have hr : (array_t.mk ((S.elems.map f).map some) S.len)
      = array_t.mk ((S.elems.map f).map some ++ []) ((S.elems.map f).length : Int) := by
    rw [List.append_nil, List.length_map, ← S.len_eq hS]
  refine ⟨_, _, MAP_spec S f hS, rfl, ?_, ?_⟩
  · rw [hr]
    exact array_t.mk_elems _ _
  · intro i h0 h1
    obtain ⟨v, hv, hl⟩ := load_elems S hS i h0 h1
    refine ⟨v, hl, ?_⟩
    have hval : (array_t.mk ((S.elems.map f).map some) S.len).valid := by
      rw [hr]
      exact array_t.mk_valid _ _
    obtain ⟨w, hw, hlw⟩ := load_elems _ hval i h0 h1
    rw [hr, array_t.mk_elems, List.getElem?_map, hv] at hw
    rw [hlw]
    simpa using hw.symm

/-- C1, at the array `[1, 2, 3]` and the doubling function. -/
theorem MAP_pointwise_witness :
    (array_t.of_list [1, 2, 3]).valid ∧
    ∃ r tr, MAP (array_t.of_list [1, 2, 3]) twice = .ok (r, tr) ∧
      r.len = (array_t.of_list [1, 2, 3]).len ∧
      r.elems = (array_t.of_list [1, 2, 3]).elems.map twice ∧
      ∀ i : Int, 0 ≤ i → i < (array_t.of_list [1, 2, 3]).len →
        ∃ v, load (array_t.of_list [1, 2, 3]).arr i = .ok v ∧ load r.arr i = .ok (twice v) :=
  ⟨by decide, MAP_pointwise (array_t.of_list [1, 2, 3]) twice (by decide)⟩

/-- C2: on every valid array `S` and for every predicate `p`, `FILTER(S, p)`
returns a valid array whose elements (its first `len` cells) are exactly the
list filter of the elements of `S` by `p x ≠ 0`: every kept element with its
multiplicity and in the original relative order, and none that `p` sends to 0. -/
theorem FILTER_eq_filter (S : array_t) (p : Int → Int) (hS : S.valid) :
    ∃ r tr, FILTER S p = .ok (r, tr) ∧ r.valid ∧
      r.elems = S.elems.filter (fun x => decide (p x ≠ 0)) ∧
      r.len = ((S.elems.filter (fun x => decide (p x ≠ 0))).length : Int) ∧
      r.live = (S.elems.filter (fun x => decide (p x ≠ 0))).map some :=
  ⟨_, _, FILTER_spec S p hS, array_t.mk_valid _ _, array_t.mk_elems _ _, rfl,
    array_t.mk_live _ _⟩

/-- C2, at the array `[2, 4, 6, 8, 10]` and the predicate `x > 4`. -/
theorem FILTER_eq_filter_witness :
    (array_t.of_list [2, 4, 6, 8, 10]).valid ∧
    ∃ r tr, FILTER (array_t.of_list [2, 4, 6, 8, 10]) above4 = .ok (r, tr) ∧ r.valid ∧
      r.elems = (array_t.of_list [2, 4, 6, 8, 10]).elems.filter (fun x => decide (above4 x ≠ 0)) ∧
      r.len = (((array_t.of_list [2, 4, 6, 8, 10]).elems.filter
        (fun x => decide (above4 x ≠ 0))).length : Int) ∧
      r.live = ((array_t.of_list [2, 4, 6, 8, 10]).elems.filter
        (fun x => decide (above4 x ≠ 0))).map some :=
  ⟨by decide, FILTER_eq_filter (array_t.of_list [2, 4, 6, 8, 10]) above4 (by decide)⟩

/-- C3: on every valid array `S`, `REDUCE(S, init, fn)` returns the left fold of
`fn` over the elements of `S` from `init`, and the calls it makes to `fn` are
those of that fold: the accumulator is the first argument, the elements are
taken from index 0 upward. -/
theorem REDUCE_eq_foldl (S : array_t) (init : Int) (fn : Int → Int → Int) (hS : S.valid) :
    ∃ tr, REDUCE S init fn = .ok (S.elems.foldl fn init, tr) ∧
      calls tr = fold_args fn init S.elems := by
  refine ⟨_, REDUCE_spec S init fn hS, ?_⟩
  rw [calls_append, calls_map_call]
  simp [calls]

/-- C3, at the array `[6, 8, 10]`, the initial value 0 and addition. -/
theorem REDUCE_eq_foldl_witness :
    (array_t.of_list [6, 8, 10]).valid ∧
    ∃ tr, REDUCE (array_t.of_list [6, 8, 10]) 0 plus
        = .ok ((array_t.of_list [6, 8, 10]).elems.foldl plus 0, tr) ∧
      calls tr = fold_args plus 0 (array_t.of_list [6, 8, 10]).elems :=
  ⟨by decide, REDUCE_eq_foldl (array_t.of_list [6, 8, 10]) 0 plus (by decide)⟩

/-- C5: the concrete scenario.  `MAP` of `[1,2,3,4,5]` by doubling is
`[2,4,6,8,10]`; `FILTER` of that result by `x > 4` has `len` 3 and elements
`[6,8,10]`; `REDUCE` of that result from 0 by addition is 24. -/
theorem scenario_map_filter_reduce :
    ∃ m tr1 fl tr2 tr3,
      MAP (array_t.of_list [1, 2, 3, 4, 5]) twice = .ok (m, tr1) ∧
      m = array_t.of_list [2, 4, 6, 8, 10] ∧
      FILTER m above4 = .ok (fl, tr2) ∧
      fl.len = 3 ∧ fl.elems = [6, 8, 10] ∧
      REDUCE fl 0 plus = .ok (24, tr3) :=
  ⟨_, _, _, _, _, rfl, rfl, rfl, rfl, rfl, rfl⟩

/-- C6: `REDUCE` on an array of `len` 0 returns `init` and makes no call to
`fn`, whatever `init` and `fn` are. -/
theorem REDUCE_empty (S : array_t) (init : Int) (fn : Int → Int → Int) (h : S.len = 0) :
    ∃ tr, REDUCE S init fn = .ok (init, tr) ∧ calls tr = [] := by
  refine ⟨[.print "REDUCE!\n"], ?_, rfl⟩
  simp [REDUCE, h, REDUCE_loop]

/-- C6, at the empty array, the initial value 7 and addition. -/
theorem REDUCE_empty_witness :
    (array_t.of_list []).len = 0 ∧
    ∃ tr, REDUCE (array_t.of_list []) 7 plus = .ok (7, tr) ∧ calls tr = [] :=
  ⟨rfl, REDUCE_empty (array_t.of_list []) 7 plus rfl⟩

/-- C7: on every valid array `S`, the result of `FILTER(S, p)` has `len` at most
`S.len`, and every cell of the result at an index below the result's `len`
holds a value on which `p` is not zero. -/
theorem FILTER_len_le_and_holds (S : array_t) (p : Int → Int) (hS : S.valid) :
    ∃ r tr, FILTER S p = .ok (r, tr) ∧ r.len ≤ S.len ∧
      ∀ i : Int, 0 ≤ i → i < r.len → ∃ v, load r.arr i = .ok v ∧ p v ≠ 0 := by
  refine ⟨_, _, FILTER_spec S p hS, ?_, ?_⟩
  · have h1 := kept_length_le p S.elems
    have h2 := S.len_eq hS
    simp only
    omega
  · intro i h0 h1
    obtain ⟨v, hv, hl⟩ := load_elems _ (array_t.mk_valid _ _) i h0 h1
    refine ⟨v, hl, ?_⟩
    rw [array_t.mk_elems] at hv
    have hm : v ∈ kept p S.elems := List.mem_iff_getElem?.2 ⟨_, hv⟩
    simpa using (List.mem_filter.1 hm).2

/-- C7, at the array `[2, 4, 6, 8, 10]` and the predicate `x > 4`. -/
theorem FILTER_len_le_and_holds_witness :
    (array_t.of_list [2, 4, 6, 8, 10]).valid ∧
    ∃ r tr, FILTER (array_t.of_list [2, 4, 6, 8, 10]) above4 = .ok (r, tr) ∧
      r.len ≤ (array_t.of_list [2, 4, 6, 8, 10]).len ∧
      ∀ i : Int, 0 ≤ i → i < r.len → ∃ v, load r.arr i = .ok v ∧ above4 v ≠ 0 :=
  ⟨by decide, FILTER_len_le_and_holds (array_t.of_list [2, 4, 6, 8, 10]) above4 (by decide)⟩

/-- C8: when the predicate is not zero on any input, `FILTER(S, p)` on a valid
array `S` returns an array with the same `len` and the same elements in the
same order: every cell below `len` reads as the input's cell does. -/
theorem FILTER_always_true (S : array_t) (p : Int → Int) (hS : S.valid)
    (hp : ∀ x, p x ≠ 0) :
    ∃ r tr, FILTER S p = .ok (r, tr) ∧ r.len = S.len ∧ r.elems = S.elems ∧
      ∀ i : Int, 0 ≤ i → i < S.len → load r.arr i = load S.arr i := by
  have hk : kept p S.elems = S.elems :=
    List.filter_eq_self.2 (fun x _ => by simpa using hp x)
  have hlen : ((kept p S.elems).length : Int) = S.len := by rw [hk, ← S.len_eq hS]
  refine ⟨_, _, FILTER_spec S p hS, hlen, ?_, ?_⟩
  · rw [array_t.mk_elems, hk]
  · intro i h0 h1
    obtain ⟨v, hv, hl⟩ := load_elems S hS i h0 h1
    obtain ⟨w, hw, hlw⟩ := load_elems _ (array_t.mk_valid (kept p S.elems)
      (List.replicate (S.len.toNat - (kept p S.elems).length) none)) i h0
      (by simp only; omega)
    rw [array_t.mk_elems, hk, hv] at hw
    rw [hl, hlw]
    simpa using hw.symm

/-- C8, at the array `[1, 2, 3]` and the predicate `always_true`. -/
theorem FILTER_always_true_witness :
    (array_t.of_list [1, 2, 3]).valid ∧ (∀ x : Int, always_true x ≠ 0) ∧
    ∃ r tr, FILTER (array_t.of_list [1, 2, 3]) always_true = .ok (r, tr) ∧
      r.len = (array_t.of_list [1, 2, 3]).len ∧
      r.elems = (array_t.of_list [1, 2, 3]).elems ∧
      ∀ i : Int, 0 ≤ i → i < (array_t.of_list [1, 2, 3]).len →
        load r.arr i = load (array_t.of_list [1, 2, 3]).arr i :=
  ⟨by decide, fun _ => by simp [always_true],
    FILTER_always_true (array_t.of_list [1, 2, 3]) always_true (by decide)
      (fun _ => by simp [always_true])⟩

/-- C9: for `fn` associative and commutative with identity `e`, and valid arrays
`S` and `S'` whose elements are a permutation of one another, `REDUCE(S, e, fn)`
and `REDUCE(S', e, fn)` return the same value. -/
theorem REDUCE_perm (fn : Int → Int → Int) (e : Int)
    (hassoc : ∀ a b c, fn (fn a b) c = fn a (fn b c))
    (hcomm : ∀ a b, fn a b = fn b a)
    (_hid : ∀ a, fn e a = a)
    (S S' : array_t) (hS : S.valid) (hS' : S'.valid) (hperm : S'.elems.Perm S.elems) :
    ∃ v tr tr', REDUCE S e fn = .ok (v, tr) ∧ REDUCE S' e fn = .ok (v, tr') := by
  have hf : S'.elems.foldl fn e = S.elems.foldl fn e :=
    hperm.foldl_eq' (fun x _ y _ z => by
      rw [hassoc, hcomm x y, ← hassoc]) e
  exact ⟨_, _, _, REDUCE_spec S e fn hS, by rw [REDUCE_spec S' e fn hS', hf]⟩

/-- C9, at addition with identity 0 and the arrays `[1, 2, 3]` and `[3, 1, 2]`. -/
theorem REDUCE_perm_witness :
    (∀ a b c, plus (plus a b) c = plus a (plus b c)) ∧ (∀ a b, plus a b = plus b a) ∧
    (∀ a, plus 0 a = a) ∧
    (array_t.of_list [1, 2, 3]).valid ∧ (array_t.of_list [3, 1, 2]).valid ∧
    (array_t.of_list [3, 1, 2]).elems.Perm (array_t.of_list [1, 2, 3]).elems ∧
    ∃ v tr tr', REDUCE (array_t.of_list [1, 2, 3]) 0 plus = .ok (v, tr) ∧
      REDUCE (array_t.of_list [3, 1, 2]) 0 plus = .ok (v, tr') :=
  ⟨fun a b c => Int.add_assoc a b c, fun a b => Int.add_comm a b, fun a => Int.zero_add a,
    by decide, by decide, by decide,
    REDUCE_perm plus 0 (fun a b c => Int.add_assoc a b c) (fun a b => Int.add_comm a b)
      (fun a => Int.zero_add a) (array_t.of_list [1, 2, 3]) (array_t.of_list [3, 1, 2])
      (by decide) (by decide) (by decide)⟩

/-! ## The dispatcher -/

/-- C4: `array_pipe` on `[1, 2, 3]` with the arguments `MAP_ENUM, twice,
FILTER_ENUM, above4, 0`.  The tag `FILTER_ENUM` takes the default branch, which
neither applies `FILTER` nor takes the predicate from the argument list, so the
next `va_arg(args, int)` meets the predicate and the run leaves defined
behaviour; with the tag directly followed by the terminator the call returns
the mapped array `[2, 4, 6]` unfiltered.  `FILTER(MAP(S, twice), above4)` has
`len` 1 and the single element 6. -/
theorem array_pipe_map_filter :
    array_pipe (array_t.of_list [1, 2, 3])
        [.int MAP_ENUM, .fn twice, .int FILTER_ENUM, .fn above4, .int 0]
      = .error .va_arg ∧
    (∃ tr, array_pipe (array_t.of_list [1, 2, 3])
        [.int MAP_ENUM, .fn twice, .int FILTER_ENUM, .int 0]
      = .ok (array_t.of_list [2, 4, 6], tr)) ∧
    ∃ m tr1 fl tr2, MAP (array_t.of_list [1, 2, 3]) twice = .ok (m, tr1) ∧
      FILTER m above4 = .ok (fl, tr2) ∧ fl.len = 1 ∧ fl.elems = [6] :=
  ⟨rfl, ⟨_, rfl⟩, _, _, _, _, rfl, rfl, rfl, rfl⟩

/-- C10: `array_pipe` with the terminator 0 as its first variadic argument
returns the array it was given, the same `arr` and `len`, and produces no
event. -/
theorem array_pipe_no_operation (S : array_t) :
    array_pipe S [.int 0] = .ok (S, []) :=
  rfl

/-! ## `FOREACH` and the empty array -/

theorem FOREACH_loop_spec (a : array_t) (g : Int → Unit) (h : a.valid) :
    ∀ (fuel k : Nat) (tr : List Event), k + fuel = a.len.toNat →
      FOREACH_loop g fuel (k : Int) a tr = .ok (a, tr ++ each_call (a.elems.drop k)) := by
  intro fuel
  induction fuel with
  | zero =>
    intro k tr hk
    have h0 := h.1
    have hlt : ¬ ((k : Int) < a.len) := by omega
    have hd := a.elems_drop_len h k (by omega)
    simp [FOREACH_loop, hlt, hd, each_call]
  | succ fuel ih =>
    intro k tr hk
    have h0 := h.1
    have hlt : (k : Int) < a.len := by omega
    obtain ⟨x, hx⟩ := a.elems_getElem? h k (by omega)
    have hl := load_valid a h k x hx
    have hd := drop_eq_cons_of_getElem? a.elems k x hx
    have hi := ih (k + 1) (tr ++ [.call [x]]) (by omega)
    push_cast at hi
    simp only [FOREACH_loop, hlt, if_true, hl]
    rw [hi, hd]
    simp [each_call]

theorem FOREACH_spec (a : array_t) (g : Int → Unit) (h : a.valid) :
    FOREACH a g = .ok (a, [.print "FOREACH!\n"] ++ each_call a.elems
      ++ [.print "FOREACH!\n"]) := by
  have hi := FOREACH_loop_spec a g h a.len.toNat 0 [.print "FOREACH!\n"] (by omega)
  simp only [Nat.cast_zero] at hi
  simp [FOREACH, hi]

theorem FOREACH_loop_same (g : Int → Unit) :
    ∀ (fuel : Nat) (i : Int) (a : array_t) (tr : List Event) (r : array_t)
      (tr1 : List Event),
      FOREACH_loop g fuel i a tr = .ok (r, tr1) → r = a := by
  intro fuel
  induction fuel with
  | zero =>
    intro i a tr r tr1 h
    simp only [FOREACH_loop] at h
    split at h
    · cases h
    · cases h
      rfl
  | succ fuel ih =>
    intro i a tr r tr1 h
    simp only [FOREACH_loop] at h
    split at h
    · split at h
      · cases h
      · exact ih _ _ _ _ _ h
    · cases h
      rfl

theorem FOREACH_same (a : array_t) (g : Int → Unit) (r : array_t) (tr : List Event)
    (h : FOREACH a g = .ok (r, tr)) : r = a := by
  simp only [FOREACH] at h
  split at h
  · cases h
  · rename_i m tr1 hm
    cases h
    exact FOREACH_loop_same g _ _ _ _ _ _ hm

theorem FOREACH_ptr_same (a : array_t) (fp : Option (Int → Unit)) (r : array_t)
    (tr : List Event) (h : FOREACH_ptr a fp = .ok (r, tr)) : r = a := by
  cases fp with
  | some f => exact FOREACH_same a f r tr h
  | none =>
    simp only [FOREACH_ptr] at h
    split at h
    · split at h <;> cases h
    · exact FOREACH_same a _ r tr h

/-- C13: on an array of `len` 0, `MAP` and `FILTER` each return an array of
`len` 0, and neither makes a call to its function argument. -/
theorem MAP_FILTER_empty (S : array_t) (f p : Int → Int) (h : S.len = 0) :
    (∃ r tr, MAP S f = .ok (r, tr) ∧ r.len = 0 ∧ calls tr = []) ∧
    (∃ r tr, FILTER S p = .ok (r, tr) ∧ r.len = 0 ∧ calls tr = []) := by
  refine ⟨⟨⟨[], 0⟩, [.print "MAP!\n"], ?_, rfl, rfl⟩,
    ⟨⟨[], 0⟩, [.print "FILTER!\n"], ?_, rfl, rfl⟩⟩
  · simp [MAP, h, MAP_loop, malloc]
  · simp [FILTER, h, FILTER_loop, malloc]

/-- C13, at the empty array, the doubling function and the predicate `x > 4`. -/
theorem MAP_FILTER_empty_witness :
    (array_t.of_list []).len = 0 ∧
    (∃ r tr, MAP (array_t.of_list []) twice = .ok (r, tr) ∧ r.len = 0 ∧ calls tr = []) ∧
    (∃ r tr, FILTER (array_t.of_list []) above4 = .ok (r, tr) ∧ r.len = 0 ∧ calls tr = []) :=
  ⟨rfl, MAP_FILTER_empty (array_t.of_list []) twice above4 rfl⟩

/-- C16: on every valid array `S`, `FOREACH(S, fn)` returns and leaves `S` as it
was, makes exactly `S.len` calls to `fn`, and the arguments of those calls are
the elements `S.arr[0]`, ..., `S.arr[S.len - 1]` in that order. -/
theorem FOREACH_calls (S : array_t) (fn : Int → Unit) (hS : S.valid) :
    ∃ tr, FOREACH S fn = .ok (S, tr) ∧
      calls tr = S.elems.map (fun x => [x]) ∧
      ((calls tr).length : Int) = S.len := by
  have hc : calls ([.print "FOREACH!\n"] ++ each_call S.elems ++ [.print "FOREACH!\n"])
      = S.elems.map (fun x => [x]) := by
    rw [calls_append, calls_append, calls_each_call]
    simp [calls]
  refine ⟨_, FOREACH_spec S fn hS, hc, ?_⟩
  rw [hc, List.length_map, ← S.len_eq hS]

/-- C16, at the array `[6, 8, 10]`. -/
theorem FOREACH_calls_witness :
    (array_t.of_list [6, 8, 10]).valid ∧
    ∃ tr, FOREACH (array_t.of_list [6, 8, 10]) ignore
        = .ok (array_t.of_list [6, 8, 10], tr) ∧
      calls tr = (array_t.of_list [6, 8, 10]).elems.map (fun x => [x]) ∧
      ((calls tr).length : Int) = (array_t.of_list [6, 8, 10]).len :=
  ⟨by decide, FOREACH_calls (array_t.of_list [6, 8, 10]) ignore (by decide)⟩

/-! ## One turn of the dispatcher -/

theorem array_pipe_loop_stop (fuel : Nat) (S : array_t) (rest : List va_arg_t)
    (tr : List Event) :
    array_pipe_loop (fuel + 1) S (.int 0 :: rest) tr = .ok (S, tr) := by
  simp [array_pipe_loop, va_arg_int]

theorem array_pipe_loop_map (fuel : Nat) (S : array_t) (f : Int → Int)
    (rest : List va_arg_t) (tr : List Event) :
    array_pipe_loop (fuel + 1) S (.int MAP_ENUM :: .fn f :: rest) tr =
      match MAP S f with
      | .error e => .error e
      | .ok (mapped, tr1) => array_pipe_loop fuel mapped rest (tr ++ tr1) := by
  simp [array_pipe_loop, va_arg_int, va_arg_fn, MAP_ptr, MAP_ENUM]

theorem array_pipe_loop_foreach (fuel : Nat) (S : array_t) (g : Int → Unit)
    (rest : List va_arg_t) (tr : List Event) :
    array_pipe_loop (fuel + 1) S (.int FOREACH_ENUM :: .consumer g :: rest) tr =
      match FOREACH S g with
      | .error e => .error e
      | .ok (value, tr1) => array_pipe_loop fuel value rest (tr ++ tr1) := by
  simp [array_pipe_loop, va_arg_int, va_arg_consumer, FOREACH_ptr, MAP_ENUM, FOREACH_ENUM]

theorem array_pipe_loop_default (n : Int) (h0 : n ≠ 0) (h1 : n ≠ MAP_ENUM)
    (h2 : n ≠ FOREACH_ENUM) (fuel : Nat) (S : array_t) (rest : List va_arg_t)
    (tr : List Event) :
    array_pipe_loop (fuel + 1) S (.int n :: rest) tr = array_pipe_loop fuel S rest tr := by
  simp [array_pipe_loop, va_arg_int, h0, h1, h2]

theorem foldl_apply_stage_error (e : Fault) (ops : List Stage) :
    ops.foldl apply_stage (.error e) = .error e := by
  induction ops with
  | nil => rfl
  | cons op ops ih => simpa [List.foldl_cons, apply_stage] using ih

theorem array_pipe_loop_stages :
    ∀ (ops : List Stage) (fuel : Nat) (S : array_t) (rest : List va_arg_t) (tr : List Event),
      ops.length < fuel →
      array_pipe_loop fuel S (stage_args ops ++ .int 0 :: rest) tr
        = ops.foldl apply_stage (.ok (S, tr)) := by
  intro ops
  induction ops with
  | nil =>
    intro fuel S rest tr hf
    obtain ⟨f, rfl⟩ : ∃ f, fuel = f + 1 := ⟨fuel - 1, by omega⟩
    simpa [stage_args] using array_pipe_loop_stop f S rest tr
  | cons op ops ih =>
    intro fuel S rest tr hf
    simp only [List.length_cons] at hf
    obtain ⟨f, rfl⟩ : ∃ f, fuel = f + 1 := ⟨fuel - 1, by omega⟩
    cases op with
    | map g =>
      simp only [stage_args, Stage.args, List.cons_append, List.nil_append, List.foldl_cons,
        apply_stage]
      rw [array_pipe_loop_map]
      cases hM : MAP S g with
      | error e => simp [foldl_apply_stage_error]
      | ok vt =>
        obtain ⟨v, tr1⟩ := vt
        simpa using ih f v rest (tr ++ tr1) (by omega)
    | foreach g =>
      simp only [stage_args, Stage.args, List.cons_append, List.nil_append, List.foldl_cons,
        apply_stage]
      rw [array_pipe_loop_foreach]
      cases hM : FOREACH S g with
      | error e => simp [foldl_apply_stage_error]
      | ok vt =>
        obtain ⟨v, tr1⟩ := vt
        obtain rfl := FOREACH_same S g v tr1 hM
        simpa using ih f v rest (tr ++ tr1) (by omega)

theorem stage_args_length (ops : List Stage) : (stage_args ops).length = 2 * ops.length := by
  induction ops with
  | nil => rfl
  | cons op ops ih =>
    cases op <;> simp [stage_args, Stage.args, ih] <;> omega

theorem array_pipe_stages (S : array_t) (ops : List Stage) (rest : List va_arg_t) :
    array_pipe S (stage_args ops ++ .int 0 :: rest) = run_stages S ops := by
  unfold array_pipe run_stages
  apply array_pipe_loop_stages
  simp [stage_args_length]
  omega

theorem MAP_valid (S : array_t) (f : Int → Int) (hS : S.valid) :
    ∃ r tr, MAP S f = .ok (r, tr) ∧ r.valid ∧ r.len = S.len ∧ r.elems = S.elems.map f := by
  have hr : (array_t.mk ((S.elems.map f).map some) S.len)
      = array_t.mk ((S.elems.map f).map some ++ []) ((S.elems.map f).length : Int) := by
    rw [List.append_nil, List.length_map, ← S.len_eq hS]
  refine ⟨_, _, MAP_spec S f hS, ?_, rfl, ?_⟩
  · rw [hr]
    exact array_t.mk_valid _ _
  · rw [hr]
    exact array_t.mk_elems _ _

theorem stages_valid :
    ∀ (ops : List Stage) (S : array_t) (tr : List Event), S.valid →
      ∃ r tr1, ops.foldl apply_stage (.ok (S, tr)) = .ok (r, tr1) ∧ r.valid ∧ r.len = S.len := by
  intro ops
  induction ops with
  | nil =>
    intro S tr hS
    exact ⟨S, tr, rfl, hS, rfl⟩
  | cons op ops ih =>
    intro S tr hS
    cases op with
    | map g =>
      obtain ⟨m, tr1, hM, hv, hl, _⟩ := MAP_valid S g hS
      obtain ⟨r, tr2, hr, hrv, hrl⟩ := ih m (tr ++ tr1) hv
      refine ⟨r, tr2, ?_, hrv, hrl.trans hl⟩
      simp only [List.foldl_cons, apply_stage, hM]
      exact hr
    | foreach g =>
      obtain ⟨r, tr2, hr, hrv, hrl⟩ := ih S
        (tr ++ ([.print "FOREACH!\n"] ++ each_call S.elems ++ [.print "FOREACH!\n"])) hS
      refine ⟨r, tr2, ?_, hrv, hrl⟩
      simp only [List.foldl_cons, apply_stage, FOREACH_spec S g hS]
      exact hr

/-! ## The dispatcher on operation lists -/

/-- C11: `FOREACH` does not change its input.  On every valid array `S` and for
every consumer `fn`, `FOREACH(S, fn)` returns and the array after the run is
`S`: the same `len`, the same elements, the same cell at every index.  On any
array at all, whenever `FOREACH` returns, the array after the run is the array
before it.  In `array_pipe` a `FOREACH_ENUM` stage hands the very same array,
`arr` and `len`, to the rest of the run, and a pipeline made of that single
stage returns `S`. -/
theorem FOREACH_keeps_array (S : array_t) (fn : Int → Unit) (hS : S.valid) :
    (∃ r tr, FOREACH S fn = .ok (r, tr) ∧ r = S ∧ r.len = S.len ∧ r.elems = S.elems ∧
      ∀ i : Int, load r.arr i = load S.arr i) ∧
    (∀ (A r : array_t) (tr : List Event), FOREACH A fn = .ok (r, tr) →
      r = A ∧ r.len = A.len ∧ r.arr = A.arr) ∧
    (∀ (fuel : Nat) (rest : List va_arg_t) (tr0 : List Event), ∃ tr1,
      array_pipe_loop (fuel + 1) S (.int FOREACH_ENUM :: .consumer fn :: rest) tr0
        = array_pipe_loop fuel S rest (tr0 ++ tr1)) ∧
    ∃ tr, array_pipe S [.int FOREACH_ENUM, .consumer fn, .int 0] = .ok (S, tr) := by
  refine ⟨⟨S, _, FOREACH_spec S fn hS, rfl, rfl, rfl, fun _ => rfl⟩, ?_, ?_, ?_⟩
  · intro A r tr h
    obtain rfl := FOREACH_same A fn r tr h
    exact ⟨rfl, rfl, rfl⟩
  · intro fuel rest tr0
    refine ⟨[.print "FOREACH!\n"] ++ each_call S.elems ++ [.print "FOREACH!\n"], ?_⟩
    rw [array_pipe_loop_foreach, FOREACH_spec S fn hS]
  · refine ⟨[] ++ ([.print "FOREACH!\n"] ++ each_call S.elems ++ [.print "FOREACH!\n"]), ?_⟩
    unfold array_pipe
    rw [array_pipe_loop_foreach, FOREACH_spec S fn hS]
    exact array_pipe_loop_stop _ _ _ _

/-- C11, at the array `[1, 2, 3]`; the part on arbitrary arrays is taken at the
same array with the run it makes. -/
theorem FOREACH_keeps_array_witness :
    (array_t.of_list [1, 2, 3]).valid ∧
    (∃ r tr, FOREACH (array_t.of_list [1, 2, 3]) ignore = .ok (r, tr) ∧
      r = array_t.of_list [1, 2, 3] ∧ r.len = (array_t.of_list [1, 2, 3]).len ∧
      r.elems = (array_t.of_list [1, 2, 3]).elems ∧
      ∀ i : Int, load r.arr i = load (array_t.of_list [1, 2, 3]).arr i) ∧
    (FOREACH (array_t.of_list [1, 2, 3]) ignore
        = .ok ({ arr := [some 1, some 2, some 3], len := 3 },
            [.print "FOREACH!\n", .call [1], .call [2], .call [3], .print "FOREACH!\n"]) ∧
      (array_t.mk [some 1, some 2, some 3] 3) = array_t.of_list [1, 2, 3] ∧
      (array_t.mk [some 1, some 2, some 3] 3).len = (array_t.of_list [1, 2, 3]).len ∧
      (array_t.mk [some 1, some 2, some 3] 3).arr = (array_t.of_list [1, 2, 3]).arr) ∧
    (∀ (fuel : Nat) (rest : List va_arg_t) (tr0 : List Event), ∃ tr1,
      array_pipe_loop (fuel + 1) (array_t.of_list [1, 2, 3])
          (.int FOREACH_ENUM :: .consumer ignore :: rest) tr0
        = array_pipe_loop fuel (array_t.of_list [1, 2, 3]) rest (tr0 ++ tr1)) ∧
    ∃ tr, array_pipe (array_t.of_list [1, 2, 3])
        [.int FOREACH_ENUM, .consumer ignore, .int 0] = .ok (array_t.of_list [1, 2, 3], tr) :=
  ⟨by decide,
    (FOREACH_keeps_array (array_t.of_list [1, 2, 3]) ignore (by decide)).1,
    ⟨rfl, (FOREACH_keeps_array (array_t.of_list [1, 2, 3]) ignore (by decide)).2.1
      (array_t.of_list [1, 2, 3]) { arr := [some 1, some 2, some 3], len := 3 }
      [.print "FOREACH!\n", .call [1], .call [2], .call [3], .print "FOREACH!\n"] rfl⟩,
    (FOREACH_keeps_array (array_t.of_list [1, 2, 3]) ignore (by decide)).2.2⟩

/-- C12, as stated, fails: on `[1, 2, 3]` with the operation list
`Reduce(0, plus), Map(twice)` passed as `REDUCE_ENUM, 0, plus, MAP_ENUM, twice, 0`
the dispatcher does not fail: it returns the input sequence. -/
theorem reduce_then_map_returns :
    array_pipe (array_t.of_list [1, 2, 3])
        [.int REDUCE_ENUM, .int 0, .fn2 plus, .int MAP_ENUM, .fn twice, .int 0]
      = .ok (array_t.of_list [1, 2, 3], []) ∧
    ¬ ∃ e, array_pipe (array_t.of_list [1, 2, 3])
        [.int REDUCE_ENUM, .int 0, .fn2 plus, .int MAP_ENUM, .fn twice, .int 0]
      = .error e :=
  ⟨rfl, fun ⟨_, h⟩ => by cases h⟩

/-- C12, amended: the dispatcher has no error value for a type mismatch and
reports no stage index.  On the arguments `REDUCE_ENUM, init, fn, MAP_ENUM, f, 0`
the tag `REDUCE_ENUM` is passed over and `init` is read as the next tag: when
`init` is 0 the call returns the input sequence unchanged and produces no
event; for every other `init` the next `va_arg` meets the pointer `fn` with
another type, which is undefined behaviour and not a reported error. -/
theorem array_pipe_reduce_map (S : array_t) (init : Int) (fn : Int → Int → Int)
    (f : Int → Int) :
    array_pipe S [.int REDUCE_ENUM, .int init, .fn2 fn, .int MAP_ENUM, .fn f, .int 0]
      = if init = 0 then .ok (S, []) else .error .va_arg := by
  by_cases h0 : init = 0
  · subst h0
    rfl
  · by_cases h1 : init = MAP_ENUM
    · subst h1
      rfl
    · by_cases h2 : init = FOREACH_ENUM
      · subst h2
        rfl
      · simp only [array_pipe, List.length_cons, List.length_nil, if_neg h0]
        rw [array_pipe_loop_default REDUCE_ENUM (by decide) (by decide) (by decide),
          array_pipe_loop_default init h0 h1 h2]
        rfl

/-- C15: for every array `S` and every list of map and foreach operations,
`array_pipe` on the tags and functions of the list followed by the terminator
is the left-to-right fold of the stage operators over the list from `S`.  On a
valid `S` that fold returns a valid array, and the list `Map(f), Map(g)` gives
`MAP(MAP(S, f), g)`. -/
theorem array_pipe_is_fold (S : array_t) (ops : List Stage) (f g : Int → Int)
    (hS : S.valid) :
    array_pipe S (stage_args ops ++ [.int 0]) = run_stages S ops ∧
    (∃ r tr, run_stages S ops = .ok (r, tr) ∧ r.valid) ∧
    ∃ m tr1 r tr2, MAP S f = .ok (m, tr1) ∧ MAP m g = .ok (r, tr2) ∧
      array_pipe S [.int MAP_ENUM, .fn f, .int MAP_ENUM, .fn g, .int 0]
        = .ok (r, tr1 ++ tr2) := by
  refine ⟨array_pipe_stages S ops [], ?_, ?_⟩
  · obtain ⟨r, tr, h, hv, _⟩ := stages_valid ops S [] hS
    exact ⟨r, tr, h, hv⟩
  · obtain ⟨m, tr1, hM, hv, _, _⟩ := MAP_valid S f hS
    obtain ⟨r, tr2, hR, _, _, _⟩ := MAP_valid m g hv
    refine ⟨m, tr1, r, tr2, hM, hR, ?_⟩
    have h := array_pipe_stages S [.map f, .map g] []
    simp only [stage_args, Stage.args, List.cons_append, List.nil_append, run_stages,
      List.foldl_cons, List.foldl_nil, apply_stage, hM, hR] at h
    simpa using h

/-- C15, at the array `[1, 2, 3]`, the operations `Map(twice), Foreach(ignore),
Map(succ1)` and the pair `twice`, `succ1`. -/
theorem array_pipe_is_fold_witness :
    (array_t.of_list [1, 2, 3]).valid ∧
    array_pipe (array_t.of_list [1, 2, 3])
        (stage_args [.map twice, .foreach ignore, .map succ1] ++ [.int 0])
      = run_stages (array_t.of_list [1, 2, 3]) [.map twice, .foreach ignore, .map succ1] ∧
    (∃ r tr, run_stages (array_t.of_list [1, 2, 3])
        [.map twice, .foreach ignore, .map succ1] = .ok (r, tr) ∧ r.valid) ∧
    ∃ m tr1 r tr2, MAP (array_t.of_list [1, 2, 3]) twice = .ok (m, tr1) ∧
      MAP m succ1 = .ok (r, tr2) ∧
      array_pipe (array_t.of_list [1, 2, 3])
          [.int MAP_ENUM, .fn twice, .int MAP_ENUM, .fn succ1, .int 0]
        = .ok (r, tr1 ++ tr2) :=
  ⟨by decide, array_pipe_is_fold (array_t.of_list [1, 2, 3])
    [.map twice, .foreach ignore, .map succ1] twice succ1 (by decide)⟩

/-- C20: in `array_pipe` a tag that is neither 0 nor `MAP_ENUM` nor
`FOREACH_ENUM` takes the default branch: the turn of the loop leaves the current
array and the events as they are and takes nothing but the tag from the
argument list, so the call behaves as if the tag were not there.  This holds of
`FILTER_ENUM` and `REDUCE_ENUM`: no `FILTER` or `REDUCE` is run for them. -/
theorem array_pipe_default_tag (n : Int) (h0 : n ≠ 0) (h1 : n ≠ MAP_ENUM)
    (h2 : n ≠ FOREACH_ENUM) (S : array_t) (rest : List va_arg_t) :
    (∀ (fuel : Nat) (tr : List Event),
      array_pipe_loop (fuel + 1) S (.int n :: rest) tr = array_pipe_loop fuel S rest tr) ∧
    array_pipe S (.int n :: rest) = array_pipe S rest ∧
    (∀ value : array_t, array_pipe value (.int FILTER_ENUM :: rest) = array_pipe value rest) ∧
    (∀ value : array_t, array_pipe value (.int REDUCE_ENUM :: rest) = array_pipe value rest) := by
  refine ⟨fun fuel tr => array_pipe_loop_default n h0 h1 h2 fuel S rest tr, ?_, ?_, ?_⟩
  · exact array_pipe_loop_default n h0 h1 h2 _ S rest []
  · intro value
    exact array_pipe_loop_default FILTER_ENUM (by decide) (by decide) (by decide) _ value rest []
  · intro value
    exact array_pipe_loop_default REDUCE_ENUM (by decide) (by decide) (by decide) _ value rest []

/-- C20, at the tag `FILTER_ENUM` on the array `[1, 2, 3]`, followed by the
terminator. -/
theorem array_pipe_default_tag_witness :
    FILTER_ENUM ≠ 0 ∧ FILTER_ENUM ≠ MAP_ENUM ∧ FILTER_ENUM ≠ FOREACH_ENUM ∧
    (∀ (fuel : Nat) (tr : List Event),
      array_pipe_loop (fuel + 1) (array_t.of_list [1, 2, 3]) (.int FILTER_ENUM :: [.int 0]) tr
        = array_pipe_loop fuel (array_t.of_list [1, 2, 3]) [.int 0] tr) ∧
    array_pipe (array_t.of_list [1, 2, 3]) (.int FILTER_ENUM :: [.int 0])
      = array_pipe (array_t.of_list [1, 2, 3]) [.int 0] ∧
    (∀ value : array_t, array_pipe value (.int FILTER_ENUM :: [.int 0])
      = array_pipe value [.int 0]) ∧
    (∀ value : array_t, array_pipe value (.int REDUCE_ENUM :: [.int 0])
      = array_pipe value [.int 0]) :=
  ⟨by decide, by decide, by decide,
    array_pipe_default_tag FILTER_ENUM (by decide) (by decide) (by decide)
      (array_t.of_list [1, 2, 3]) [.int 0]⟩

/-! ## `int_pipe` -/

theorem int_pipe_loop_fns :
    ∀ (fs : List (Int → Int)) (fuel : Nat) (v : Int) (rest : List va_arg_t) (tr : List Event),
      fs.length < fuel →
      int_pipe_loop fuel v (fs.map va_arg_t.fn ++ .null :: rest) tr
        = .ok (fs.foldl (fun acc f => f acc) v, tr ++ (pipe_args v fs).map Event.call) := by
  intro fs
  induction fs with
  | nil =>
    intro fuel v rest tr hf
    obtain ⟨f, rfl⟩ : ∃ f, fuel = f + 1 := ⟨fuel - 1, by omega⟩
    simp [int_pipe_loop, va_arg_fn, pipe_args]
  | cons g fs ih =>
    intro fuel v rest tr hf
    simp only [List.length_cons] at hf
    obtain ⟨f, rfl⟩ : ∃ f, fuel = f + 1 := ⟨fuel - 1, by omega⟩
    have hi := ih f (g v) rest (tr ++ [.call [v]]) (by omega)
    simp only [List.map_cons, List.cons_append, int_pipe_loop, va_arg_fn, List.foldl_cons,
      pipe_args]
    rw [hi]
    simp

theorem int_pipe_loop_after_null :
    ∀ (pre : List va_arg_t) (fuel fuel' : Nat) (v : Int) (rest : List va_arg_t)
      (tr : List Event), pre.length < fuel → pre.length < fuel' →
      int_pipe_loop fuel v (pre ++ .null :: rest) tr
        = int_pipe_loop fuel' v (pre ++ [.null]) tr := by
  intro pre
  induction pre with
  | nil =>
    intro fuel fuel' v rest tr h1 h2
    obtain ⟨f, rfl⟩ : ∃ f, fuel = f + 1 := ⟨fuel - 1, by omega⟩
    obtain ⟨f', rfl⟩ : ∃ f', fuel' = f' + 1 := ⟨fuel' - 1, by omega⟩
    simp [int_pipe_loop, va_arg_fn]
  | cons a pre ih =>
    intro fuel fuel' v rest tr h1 h2
    simp only [List.length_cons] at h1 h2
    obtain ⟨f, rfl⟩ : ∃ f, fuel = f + 1 := ⟨fuel - 1, by omega⟩
    obtain ⟨f', rfl⟩ : ∃ f', fuel' = f' + 1 := ⟨fuel' - 1, by omega⟩
    cases a with
    | fn g =>
      simp only [List.cons_append, int_pipe_loop, va_arg_fn]
      exact ih f f' (g v) rest _ (by omega) (by omega)
    | int n => simp [int_pipe_loop, va_arg_fn]
    | consumer g => simp [int_pipe_loop, va_arg_fn]
    | fn2 g => simp [int_pipe_loop, va_arg_fn]
    | null => simp [int_pipe_loop, va_arg_fn]

/-- C14: for every `v` and every list `f1, ..., fn` of functions,
`int_pipe(v, f1, ..., fn, NULL)` returns `fn(...f2(f1(v))...)`: the functions are
applied from left to right, each to the result of the one before, once each;
`int_pipe(v, NULL)` returns `v`. -/
theorem int_pipe_composes (v : Int) (fs : List (Int → Int)) :
    (∃ tr, int_pipe v (fs.map va_arg_t.fn ++ [.null])
        = .ok (fs.foldl (fun acc f => f acc) v, tr) ∧ calls tr = pipe_args v fs) ∧
    int_pipe v [.null] = .ok (v, []) := by
  refine ⟨⟨[] ++ (pipe_args v fs).map Event.call, ?_, ?_⟩, rfl⟩
  · exact int_pipe_loop_fns fs _ v [] [] (by simp; omega)
  · simp [calls_map_call]

/-! ## The length of the dispatcher's result -/

theorem MAP_loop_len (a : array_t) (f : Int → Int) :
    ∀ (fuel : Nat) (i : Int) (mapped : array_t) (tr : List Event) (r : array_t)
      (tr1 : List Event),
      MAP_loop a f fuel i mapped tr = .ok (r, tr1) → r.len = mapped.len := by
  intro fuel
  induction fuel with
  | zero =>
    intro i mapped tr r tr1 h
    simp only [MAP_loop] at h
    split at h
    · cases h
    · cases h
      rfl
  | succ fuel ih =>
    intro i mapped tr r tr1 h
    simp only [MAP_loop] at h
    split at h
    · split at h
      · cases h
      · split at h
        · cases h
        · have := ih _ _ _ _ _ h
          simpa using this
    · cases h
      rfl

theorem MAP_len (a : array_t) (f : Int → Int) (r : array_t) (tr : List Event)
    (h : MAP a f = .ok (r, tr)) : r.len = a.len := by
  simp only [MAP] at h
  split at h
  · cases h
  · rename_i m tr1 hm
    cases h
    have := MAP_loop_len a f _ _ _ _ _ _ hm
    simpa using this

theorem MAP_ptr_len (a : array_t) (fp : Option (Int → Int)) (r : array_t) (tr : List Event)
    (h : MAP_ptr a fp = .ok (r, tr)) : r.len = a.len := by
  cases fp with
  | some f => exact MAP_len a f r tr h
  | none =>
    simp only [MAP_ptr] at h
    split at h
    · split at h <;> cases h
    · exact MAP_len a _ r tr h

theorem array_pipe_loop_len :
    ∀ (fuel : Nat) (S : array_t) (args : List va_arg_t) (tr : List Event) (r : array_t)
      (tr1 : List Event),
      array_pipe_loop fuel S args tr = .ok (r, tr1) → r.len = S.len := by
  intro fuel
  induction fuel with
  | zero =>
    intro S args tr r tr1 h
    simp [array_pipe_loop] at h
  | succ fuel ih =>
    intro S args tr r tr1 h
    simp only [array_pipe_loop] at h
    split at h
    · cases h
    · split at h
      · split at h
        · split at h
          · cases h
          · split at h
            · cases h
            · rename_i hM
              exact (ih _ _ _ _ _ h).trans (MAP_ptr_len _ _ _ _ hM)
        · split at h
          · split at h
            · cases h
            · split at h
              · cases h
              · rename_i hF
                rw [ih _ _ _ _ _ h, FOREACH_ptr_same _ _ _ _ hF]
          · exact ih _ _ _ _ _ h
      · cases h
        rfl

/-- C18: the array returned by `array_pipe` never has a greater `len` than
the array it was given, whatever the argument list; and on a valid array
every list of map and foreach operations followed by the terminator does
return an array. -/
theorem array_pipe_len_le (S : array_t) :
    (∀ (args : List va_arg_t) (r : array_t) (tr : List Event),
      array_pipe S args = .ok (r, tr) → r.len ≤ S.len) ∧
    (S.valid → ∀ ops : List Stage,
      ∃ r tr, array_pipe S (stage_args ops ++ [.int 0]) = .ok (r, tr) ∧ r.len ≤ S.len) := by
  have hle : ∀ (args : List va_arg_t) (r : array_t) (tr : List Event),
      array_pipe S args = .ok (r, tr) → r.len ≤ S.len := by
    intro args r tr h
    exact le_of_eq (array_pipe_loop_len _ S args [] r tr h)
  refine ⟨hle, ?_⟩
  intro hS ops
  obtain ⟨r, tr, h, _, _⟩ := stages_valid ops S [] hS
  have he : array_pipe S (stage_args ops ++ [.int 0]) = .ok (r, tr) := by
    rw [array_pipe_stages S ops []]
    exact h
  exact ⟨r, tr, he, hle _ r tr he⟩

/-- C18, at the array `[1, 2, 3]` with the arguments `MAP_ENUM, twice, 0`. -/
theorem array_pipe_len_le_witness :
    (array_pipe (array_t.of_list [1, 2, 3]) [.int MAP_ENUM, .fn twice, .int 0]
        = .ok (array_t.of_list [2, 4, 6],
            [.call [1], .call [2], .call [3], .print "MAP!\n"]) ∧
      (array_t.of_list [2, 4, 6]).len ≤ (array_t.of_list [1, 2, 3]).len) ∧
    (array_t.of_list [1, 2, 3]).valid ∧
    ∃ r tr, array_pipe (array_t.of_list [1, 2, 3]) (stage_args [.map twice] ++ [.int 0])
        = .ok (r, tr) ∧ r.len ≤ (array_t.of_list [1, 2, 3]).len :=
  ⟨⟨rfl, (array_pipe_len_le (array_t.of_list [1, 2, 3])).1
      [.int MAP_ENUM, .fn twice, .int 0] (array_t.of_list [2, 4, 6])
      [.call [1], .call [2], .call [3], .print "MAP!\n"] rfl⟩, by decide,
    (array_pipe_len_le (array_t.of_list [1, 2, 3])).2 (by decide) [.map twice]⟩

/-! ## The terminator -/

theorem array_pipe_loop_map_tag (fuel : Nat) (S : array_t) (args : List va_arg_t)
    (tr : List Event) :
    array_pipe_loop (fuel + 1) S (.int MAP_ENUM :: args) tr =
      match va_arg_fn args with
      | .error e => .error e
      | .ok (map_func, args) =>
        match MAP_ptr S map_func with
        | .error e => .error e
        | .ok (value, tr1) => array_pipe_loop fuel value args (tr ++ tr1) := by
  simp [array_pipe_loop, va_arg_int, MAP_ENUM]

theorem array_pipe_loop_foreach_tag (fuel : Nat) (S : array_t) (args : List va_arg_t)
    (tr : List Event) :
    array_pipe_loop (fuel + 1) S (.int FOREACH_ENUM :: args) tr =
      match va_arg_consumer args with
      | .error e => .error e
      | .ok (foreach_func, args) =>
        match FOREACH_ptr S foreach_func with
        | .error e => .error e
        | .ok (value, tr1) => array_pipe_loop fuel value args (tr ++ tr1) := by
  simp [array_pipe_loop, va_arg_int, MAP_ENUM, FOREACH_ENUM]

theorem array_pipe_loop_after_stop :
    ∀ (fuel fuel' : Nat) (pre rest : List va_arg_t) (S : array_t) (tr : List Event),
      pre.length < fuel → pre.length < fuel' →
      array_pipe_loop fuel S (pre ++ .int 0 :: rest) tr
        = array_pipe_loop fuel' S (pre ++ [.int 0]) tr := by
  intro fuel
  induction fuel with
  | zero =>
    intro fuel' pre rest S tr h1
    omega
  | succ f ih =>
    intro fuel' pre rest S tr h1 h2
    obtain ⟨f', rfl⟩ : ∃ f', fuel' = f' + 1 := ⟨fuel' - 1, by omega⟩
    cases pre with
    | nil => simp [array_pipe_loop_stop]
    | cons a pre =>
      simp only [List.length_cons] at h1 h2
      cases a with
      | int n =>
        by_cases h0 : n = 0
        · subst h0
          simp [array_pipe_loop_stop]
        · by_cases hm : n = MAP_ENUM
          · subst hm
            simp only [List.cons_append]
            rw [array_pipe_loop_map_tag, array_pipe_loop_map_tag]
            cases pre with
            | nil => simp [va_arg_fn]
            | cons b pre =>
              simp only [List.length_cons] at h1 h2
              cases b with
              | fn g =>
                simp only [List.cons_append, va_arg_fn]
                cases MAP_ptr S (some g) with
                | error e => rfl
                | ok vt => exact ih f' pre rest vt.1 _ (by omega) (by omega)
              | null =>
                simp only [List.cons_append, va_arg_fn]
                cases MAP_ptr S none with
                | error e => rfl
                | ok vt => exact ih f' pre rest vt.1 _ (by omega) (by omega)
              | int k => simp [va_arg_fn]
              | consumer g => simp [va_arg_fn]
              | fn2 g => simp [va_arg_fn]
          · by_cases hf : n = FOREACH_ENUM
            · subst hf
              simp only [List.cons_append]
              rw [array_pipe_loop_foreach_tag, array_pipe_loop_foreach_tag]
              cases pre with
              | nil => simp [va_arg_consumer]
              | cons b pre =>
                simp only [List.length_cons] at h1 h2
                cases b with
                | consumer g =>
                  simp only [List.cons_append, va_arg_consumer]
                  cases FOREACH_ptr S (some g) with
                  | error e => rfl
                  | ok vt => exact ih f' pre rest vt.1 _ (by omega) (by omega)
                | null =>
                  simp only [List.cons_append, va_arg_consumer]
                  cases FOREACH_ptr S none with
                  | error e => rfl
                  | ok vt => exact ih f' pre rest vt.1 _ (by omega) (by omega)
                | int k => simp [va_arg_consumer]
                | fn g => simp [va_arg_consumer]
                | fn2 g => simp [va_arg_consumer]
            · simp only [List.cons_append]
              rw [array_pipe_loop_default n h0 hm hf, array_pipe_loop_default n h0 hm hf]
              exact ih f' pre rest S tr (by omega) (by omega)
      | fn g => simp [array_pipe_loop, va_arg_int]
      | consumer g => simp [array_pipe_loop, va_arg_int]
      | fn2 g => simp [array_pipe_loop, va_arg_int]
      | null => simp [array_pipe_loop, va_arg_int]

/-- C19: dispatch stops at the first terminator.  For every array and all
argument lists `pre` and `rest`, `array_pipe` on `pre`, the tag 0 and `rest`
returns what it returns on `pre` and the tag 0 alone; on a list of map and
foreach operations followed by 0 and by `rest` that is the fold of the
operations, whatever `rest` is.  Likewise `int_pipe` on `pre`, `NULL` and
`rest` returns what it returns on `pre` and `NULL` alone, and on functions
`f1, ..., fn` followed by `NULL` and by `rest` it returns `fn(...f1(v)...)`. -/
theorem pipes_stop_at_terminator (S : array_t) (v : Int) (pre rest : List va_arg_t)
    (ops : List Stage) (fs : List (Int → Int)) :
    array_pipe S (pre ++ .int 0 :: rest) = array_pipe S (pre ++ [.int 0]) ∧
    array_pipe S (stage_args ops ++ .int 0 :: rest) = run_stages S ops ∧
    int_pipe v (pre ++ .null :: rest) = int_pipe v (pre ++ [.null]) ∧
    ∃ tr, int_pipe v (fs.map va_arg_t.fn ++ .null :: rest)
      = .ok (fs.foldl (fun acc f => f acc) v, tr) := by
  refine ⟨?_, array_pipe_stages S ops rest, ?_, ?_⟩
  · exact array_pipe_loop_after_stop _ _ pre rest S []
      (by simp only [List.length_append, List.length_cons, List.length_nil]; omega)
      (by simp only [List.length_append, List.length_cons, List.length_nil]; omega)
  · exact int_pipe_loop_after_null pre _ _ v rest []
      (by simp only [List.length_append, List.length_cons, List.length_nil]; omega)
      (by simp only [List.length_append, List.length_cons, List.length_nil]; omega)
  · exact ⟨_, int_pipe_loop_fns fs _ v rest [] (by simp; omega)⟩

/-! ## The loop of `FILTER`, turn by turn -/

theorem set_append_replicate {α : Type} (l : List α) (j : Nat) (a v : α) :
    (l ++ List.replicate (j + 1) a).set l.length v = l ++ v :: List.replicate j a := by
  induction l with
  | nil => simp [List.replicate_succ]
  | cons b l ih => simpa using ih

theorem take_succ_of_getElem? {α : Type} (l : List α) (k : Nat) (x : α)
    (h : l[k]? = some x) : l.take (k + 1) = l.take k ++ [x] := by
  induction l generalizing k with
  | nil => simp at h
  | cons a l ih =>
    cases k with
    | zero => simp at h; simp [h]
    | succ k => simp at h; simpa using ih k h

theorem written_map_some (ys : List Int) (j : Nat) :
    written (ys.map some ++ List.replicate j none) = ys.length := by
  induction ys with
  | nil =>
    induction j with
    | zero => rfl
    | succ j ih => simp [written, List.replicate_succ]
  | cons y ys ih => simpa [written] using ih

theorem kept_take_length_le (a : array_t) (p : Int → Int) (k : Nat) :
    (kept p (a.elems.take k)).length ≤ k :=
  le_trans (kept_length_le p _) (by simp)

theorem FILTER_turn (a : array_t) (p : Int → Int) (h : a.valid) (k : Nat)
    (hk : k < a.len.toNat) :
    ∃ x, load a.arr (k : Int) = .ok x ∧
      FILTER_body a p (k : Int) (output_after a p k) = .ok (output_after a p (k + 1)) ∧
      ∀ (fuel : Nat) (tr : List Event),
        FILTER_loop a p (fuel + 1) (k : Int) (output_after a p k) tr
          = FILTER_loop a p fuel ((k + 1 : Nat) : Int) (output_after a p (k + 1))
              (tr ++ [.call [x]]) := by
  have h0 := h.1
  have hlt : (k : Int) < a.len := by omega
  obtain ⟨x, hx⟩ := a.elems_getElem? h k hk
  have hl := load_valid a h k x hx
  have ht := take_succ_of_getElem? a.elems k x hx
  have hc := kept_take_length_le a p k
  refine ⟨x, hl, ?_⟩
  by_cases hp : p x ≠ 0
  · have hk1 : kept p (a.elems.take (k + 1)) = kept p (a.elems.take k) ++ [x] := by
      rw [ht]
      simp [kept, hp]
    have hn : a.len.toNat - (kept p (a.elems.take k)).length
        = (a.len.toNat - ((kept p (a.elems.take k)).length + 1)) + 1 := by omega
    have hs : store (output_after a p k).arr (output_after a p k).len x
        = .ok (output_after a p (k + 1)).arr := by
      have hb : (kept p (a.elems.take k)).length < (output_after a p k).arr.length := by
        simp only [output_after, List.length_append, List.length_map, List.length_replicate]
        omega
      have e := store_ok (output_after a p k).arr (kept p (a.elems.take k)).length x hb
      simp only [output_after] at e ⊢
      rw [e, hk1, hn]
      have e2 := set_append_replicate ((kept p (a.elems.take k)).map some)
        (a.len.toNat - ((kept p (a.elems.take k)).length + 1)) none (some x)
      simp only [List.length_map] at e2
      rw [e2]
      simp
    have hlen : (output_after a p k).len + 1 = (output_after a p (k + 1)).len := by
      simp only [output_after, hk1]
      simp
    have hst : (array_t.mk (output_after a p (k + 1)).arr ((output_after a p k).len + 1))
        = output_after a p (k + 1) := by
      rw [hlen]
    refine ⟨?_, ?_⟩
    · simp only [FILTER_body, hl, hp, hs, ne_eq, not_false_eq_true, if_true, hst]
    · intro fuel tr
      simp only [FILTER_loop, hlt, hl, hp, hs, ne_eq, not_false_eq_true, if_true, hst]
      push_cast
      rfl
  · have hk1 : kept p (a.elems.take (k + 1)) = kept p (a.elems.take k) := by
      rw [ht]
      have : p x = 0 := by simpa using hp
      simp [kept, this]
    have hst : output_after a p (k + 1) = output_after a p k := by
      simp only [output_after, hk1]
    refine ⟨?_, ?_⟩
    · simp only [FILTER_body, hl, hp, if_false, hst]
    · intro fuel tr
      simp only [FILTER_loop, hlt, hl, hp, if_true, if_false, hst]
      push_cast
      rfl

theorem FILTER_after_spec (a : array_t) (p : Int → Int) (h : a.valid) :
    ∀ k : Nat, k ≤ a.len.toNat →
      FILTER_after a p k = .ok (output_after a p k) ∧
      ∃ tr, FILTER_loop a p a.len.toNat 0 { arr := malloc a.len, len := 0 } []
        = FILTER_loop a p (a.len.toNat - k) (k : Int) (output_after a p k) tr := by
  intro k
  induction k with
  | zero =>
    intro _
    refine ⟨?_, [], ?_⟩
    · simp [FILTER_after, output_after, kept, malloc]
    · simp [output_after, kept, malloc]
  | succ k ih =>
    intro hk
    obtain ⟨ha, tr, hr⟩ := ih (by omega)
    obtain ⟨x, _, hb, hloop⟩ := FILTER_turn a p h k (by omega)
    refine ⟨?_, tr ++ [.call [x]], ?_⟩
    · simp only [FILTER_after, ha, hb]
    · have e : a.len.toNat - k = (a.len.toNat - (k + 1)) + 1 := by omega
      rw [hr, e, hloop]

theorem output_after_len (a : array_t) (p : Int → Int) (h : a.valid) :
    output_after a p a.len.toNat
      = { arr := (kept p a.elems).map some
            ++ List.replicate (a.len.toNat - (kept p a.elems).length) none,
          len := ((kept p a.elems).length : Int) } := by
  have e : a.elems.take a.len.toNat = a.elems :=
    List.take_of_length_le (le_of_eq (a.elems_length h))
  simp only [output_after, e]

/-- C17: the bounds of `FILTER` on a valid array `S`.  For every `k` up to
`S.len` the run of the loop reaches the test with `i = k` and an output whose
`len` is between 0 and `k`, whose block is the buffer of `S.len` cells, and in
which exactly `len` cells have been written.  While `k < S.len` the read
`array.arr[k]` succeeds at an index below `S.len`, and the write
`filtered.arr[filtered.len]` is at an index inside the buffer.  On exit the
output is the result of `FILTER`, and its `len` is the number of cells
written. -/
theorem FILTER_bounds (S : array_t) (p : Int → Int) (hS : S.valid) :
    (∀ k : Nat, k ≤ S.len.toNat →
      ∃ st tr, FILTER_after S p k = .ok st ∧
        FILTER_loop S p S.len.toNat 0 { arr := malloc S.len, len := 0 } []
          = FILTER_loop S p (S.len.toNat - k) (k : Int) st tr ∧
        0 ≤ st.len ∧ st.len ≤ (k : Int) ∧ st.arr.length = S.len.toNat ∧
        written st.arr = st.len.toNat ∧
        (k < S.len.toNat →
          (k : Int) < S.len ∧ st.len.toNat < st.arr.length ∧
          ∃ x, load S.arr (k : Int) = .ok x ∧ ∃ blk, store st.arr st.len x = .ok blk)) ∧
    ∃ r tr, FILTER S p = .ok (r, tr) ∧ FILTER_after S p S.len.toNat = .ok r ∧
      written r.arr = r.len.toNat := by
  have h0 := hS.1
  have hlen : ∀ k : Nat, k ≤ S.len.toNat → (output_after S p k).arr.length = S.len.toNat := by
    intro k hk
    have hc := kept_take_length_le S p k
    simp only [output_after, List.length_append, List.length_map, List.length_replicate]
    omega
  have hw : ∀ k : Nat, written (output_after S p k).arr = (output_after S p k).len.toNat := by
    intro k
    simp only [output_after, written_map_some, Int.toNat_ofNat]
  refine ⟨?_, ?_⟩
  · intro k hk
    obtain ⟨ha, tr, hr⟩ := FILTER_after_spec S p hS k hk
    have hc := kept_take_length_le S p k
    refine ⟨output_after S p k, tr, ha, hr, ?_, ?_, hlen k hk, hw k, ?_⟩
    · simp [output_after]
    · simp only [output_after]
      exact_mod_cast hc
    · intro hlt
      obtain ⟨x, hl, _, _⟩ := FILTER_turn S p hS k hlt
      have hb : (kept p (S.elems.take k)).length < (output_after S p k).arr.length := by
        rw [hlen k hk]
        omega
      refine ⟨by omega, ?_, x, hl, ?_⟩
      · simpa [output_after] using hb
      · exact ⟨_, store_ok (output_after S p k).arr (kept p (S.elems.take k)).length x hb⟩
  · obtain ⟨ha, _, _⟩ := FILTER_after_spec S p hS S.len.toNat (le_refl _)
    refine ⟨output_after S p S.len.toNat, each_call S.elems ++ [.print "FILTER!\n"], ?_, ha,
      hw _⟩
    rw [output_after_len S p hS]
    exact FILTER_spec S p hS

/-- C17, at the array `[2, 4, 6, 8, 10]` and the predicate `x > 4`. -/
theorem FILTER_bounds_witness :
    (array_t.of_list [2, 4, 6, 8, 10]).valid ∧
    (∀ k : Nat, k ≤ (array_t.of_list [2, 4, 6, 8, 10]).len.toNat →
      ∃ st tr, FILTER_after (array_t.of_list [2, 4, 6, 8, 10]) above4 k = .ok st ∧
        FILTER_loop (array_t.of_list [2, 4, 6, 8, 10]) above4
            (array_t.of_list [2, 4, 6, 8, 10]).len.toNat 0
            { arr := malloc (array_t.of_list [2, 4, 6, 8, 10]).len, len := 0 } []
          = FILTER_loop (array_t.of_list [2, 4, 6, 8, 10]) above4
              ((array_t.of_list [2, 4, 6, 8, 10]).len.toNat - k) (k : Int) st tr ∧
        0 ≤ st.len ∧ st.len ≤ (k : Int) ∧
        st.arr.length = (array_t.of_list [2, 4, 6, 8, 10]).len.toNat ∧
        written st.arr = st.len.toNat ∧
        (k < (array_t.of_list [2, 4, 6, 8, 10]).len.toNat →
          (k : Int) < (array_t.of_list [2, 4, 6, 8, 10]).len ∧
          st.len.toNat < st.arr.length ∧
          ∃ x, load (array_t.of_list [2, 4, 6, 8, 10]).arr (k : Int) = .ok x ∧
            ∃ blk, store st.arr st.len x = .ok blk)) ∧
    ∃ r tr, FILTER (array_t.of_list [2, 4, 6, 8, 10]) above4 = .ok (r, tr) ∧
      FILTER_after (array_t.of_list [2, 4, 6, 8, 10]) above4
        (array_t.of_list [2, 4, 6, 8, 10]).len.toNat = .ok r ∧
      written r.arr = r.len.toNat :=
  ⟨by decide, FILTER_bounds (array_t.of_list [2, 4, 6, 8, 10]) above4 (by decide)⟩

end FunC
